import Mathlib

set_option maxHeartbeats 1000000

/-!
Verification of the customer segmentation and cohort retention engine of an
e-commerce analytics code base.  The definitions below are shallow embeddings
of the RFM scoring, behavioural segmentation, churn binning, cohort retention
and purchase-sequencing logic found in the dashboard sources; the theorems
settle the stated properties of that logic.
-/

namespace AmazonAnalytics

/-- First index in the list whose entry is at least `v`: the upper-edge search
used when assigning a value to a right-closed interval. -/
def firstGE (v : ℚ) : List ℚ → Option ℕ
  | [] => none
  | e :: rest => if v ≤ e then some 0 else (firstGE v rest).map (fun i => i + 1)

/-- Interval assignment of a value against a list of bin edges, bins open on
the left and closed on the right (cut with right=True).  When `incLow` is true
a value equal to the first edge falls into bin 0 (the include-lowest behaviour
qcut applies to the minimum of the data). -/
def binOf : List ℚ → Bool → ℚ → Option ℕ
  | [], _, _ => none
  | e0 :: rest, incLow, v =>
      if incLow = true ∧ v = e0 then
        if rest = [] then none else some 0
      else if v ≤ e0 then none
      else firstGE v rest

/-- Stable insertion of an element into a list ordered by the strict relation
`lt`: the element is placed before the first entry not strictly below it. -/
def insertByLt {α : Type} (lt : α → α → Prop) [DecidableRel lt] (a : α) : List α → List α
  | [] => [a]
  | b :: l => if lt b a then b :: insertByLt lt a l else a :: b :: l

/-- Stable insertion sort by the strict relation `lt`; entries whose keys tie
keep their original relative order. -/
def sortByLt {α : Type} (lt : α → α → Prop) [DecidableRel lt] : List α → List α
  | [] => []
  | a :: l => insertByLt lt a (sortByLt lt l)

/-- Collapse of adjacent duplicate entries of an already sorted list; this is
how duplicate quantile edges are dropped. -/
def dedupSorted : List ℚ → List ℚ
  | [] => []
  | [a] => [a]
  | a :: b :: rest => if a = b then dedupSorted (b :: rest) else a :: dedupSorted (b :: rest)

/-- Fold computing a minimal element for the relation `le`, seeded with `d`. -/
def foldMinBy {α : Type} (le : α → α → Prop) [DecidableRel le] (d : α) (l : List α) : α :=
  l.foldl (fun acc x => if le x acc then x else acc) d

/-- Minimum entry of a rational list (0 on the empty list, which never occurs
at use sites). -/
def minQ : List ℚ → ℚ
  | [] => 0
  | c :: cs => foldMinBy (fun a b => a ≤ b) c cs

/-- Maximum entry of a rational list. -/
def maxQ : List ℚ → ℚ
  | [] => 0
  | c :: cs => foldMinBy (fun a b => b ≤ a) c cs

/-- Ascending sort of a rational list. -/
def sortQ : List ℚ → List ℚ := sortByLt (fun a b => a < b)

/-- The `k + 1` evenly spaced points from `lo` to `hi`. -/
def linspace (lo hi : ℚ) (k : ℕ) : List ℚ :=
  (List.range (k + 1)).map (fun i : ℕ => lo + (hi - lo) * (i : ℚ) / (k : ℚ))

/-- Equal-width bin edges of cut with an integer bin count: `k + 1` evenly
spaced edges over the observed range, the degenerate single-value range first
widened by 0.1 percent on both sides, and otherwise the leftmost edge lowered
by 0.1 percent of the range so the minimum value falls inside the first bin. -/
def cutEdges (clean : List ℚ) (k : ℕ) : List ℚ :=
  match clean with
  | [] => []
  | c :: cs =>
      let mn := minQ (c :: cs)
      let mx := maxQ (c :: cs)
      if mn = mx then
        let adj := if mn = 0 then (1 : ℚ) / 1000 else |mn| / 1000
        linspace (mn - adj) (mx + adj) k
      else
        (mn - (mx - mn) / 1000) :: (linspace mn mx k).tail

/-- Linear-interpolation quantile of a sorted list at probability `p`. -/
def quantileAt (s : List ℚ) (p : ℚ) : ℚ :=
  match s with
  | [] => 0
  | _ :: _ =>
      let n := s.length
      let pos := p * ((n : ℚ) - 1)
      let i := (Int.floor pos).toNat
      let frac := pos - (i : ℚ)
      let a := s.getD i 0
      let b := s.getD (i + 1) a
      a + frac * (b - a)

/-- The six quintile edges of qcut with q = 5: quantiles of the sorted data at
probabilities 0, 1/5, 2/5, 3/5, 4/5 and 1. -/
def qcutEdges (clean : List ℚ) : List ℚ :=
  (List.range 6).map (fun i : ℕ => quantileAt (sortQ clean) ((i : ℚ) / 5))

/-- Per-value result of cut with a given edge list and label list: missing
values stay missing, a binned value receives the label indexed by its bin. -/
def applyCut (edges : List ℚ) (incLow : Bool) (labels : List ℕ) (v : Option ℚ) : Option ℕ :=
  v.bind (fun x => (binOf edges incLow x).bind (fun i => labels.get? i))

/-- Per-value semantics of the dashboard helper safe_quantile_cut: drop the
missing values; with fewer clean points than labels, equal-width cut over all
data; otherwise qcut into quintiles with duplicate edges dropped, which raises
on a label-count mismatch and is then caught and replaced by the equal-width
cut fallback. -/
def safe_quantile_cut (data : List (Option ℚ)) (labels : List ℕ) (v : Option ℚ) : Option ℕ :=
  let clean := data.filterMap id
  if clean.length < labels.length then
    applyCut (cutEdges clean labels.length) false labels v
  else
    let edges := dedupSorted (qcutEdges clean)
    if edges.length = labels.length + 1 then
      applyCut edges true labels v
    else
      applyCut (cutEdges clean labels.length) false labels v

/-- A dimension score in the 30-dashboards pipeline: the binned label coerced
to a number, with missing results replaced by the neutral default 3. -/
def dash_score (data : List (Option ℚ)) (labels : List ℕ) (v : Option ℚ) : ℚ :=
  ((safe_quantile_cut data labels v).map (fun n : ℕ => (n : ℚ))).getD 3

/-- Number of distinct values of a rational list (nunique). -/
def nuniqueQ (l : List ℚ) : ℕ := l.dedup.length

/-- A dimension score in the EDA pipeline: qcut into quintiles when the clean
data has at least five distinct values (raising when duplicate edges leave too
few bins for the labels, an error the caller does not catch locally), and an
equal-width cut otherwise; the result is coerced to a number with no default
for missing entries. -/
def eda_dim_score (data : List (Option ℚ)) (labels : List ℕ) (v : Option ℚ) :
    Except Unit (Option ℕ) :=
  let clean := data.filterMap id
  if 5 ≤ nuniqueQ clean then
    let edges := dedupSorted (qcutEdges clean)
    if edges.length = labels.length + 1 then
      Except.ok (applyCut edges true labels v)
    else
      Except.error ()
  else
    Except.ok (applyCut (cutEdges clean labels.length) false labels v)

/-- Composite-score to segment mapping of the 30-dashboards app: first-match
thresholds 13, 10, 8, 6, with an undefined composite mapping to Unknown. -/
def get_rfm_segment (rfm_score : Option ℚ) : String :=
  match rfm_score with
  | none => "Unknown"
  | some s =>
      if 13 ≤ s then "Champions"
      else if 10 ≤ s then "Loyal Customers"
      else if 8 ≤ s then "Potential Loyalists"
      else if 6 ≤ s then "At Risk"
      else "Lost Customers"

/-- Composite-score to segment mapping of the EDA app: first-match thresholds
12, 9, 6, 4, with an undefined composite mapping to Unknown. -/
def get_rfm_segment_eda (rfm_score : Option ℚ) : String :=
  match rfm_score with
  | none => "Unknown"
  | some s =>
      if 12 ≤ s then "Champions"
      else if 9 ≤ s then "Loyal Customers"
      else if 6 ≤ s then "Potential Loyalists"
      else if 4 ≤ s then "At Risk"
      else "Lost Customers"

/-- Behaviour segment from average order value: missing values filled with 0,
then cut with the explicit edges 0, 500, 1500, 3000 and infinity, right-closed
and not include-lowest, labelled Budget, Value, Premium, Luxury. -/
def behavior_segment (avg_order_value : Option ℚ) : Option String :=
  let x := avg_order_value.getD 0
  if x ≤ 0 then none
  else if x ≤ 500 then some "Budget"
  else if x ≤ 1500 then some "Value"
  else if x ≤ 3000 then some "Premium"
  else some "Luxury"

/-- Churn risk from days since last order: cut with the explicit edges 0, 30,
60, 90, 180 and infinity, right-closed and not include-lowest, with missing
input left missing. -/
def churn_risk (days_since_last_order : Option ℚ) : Option String :=
  match days_since_last_order with
  | none => none
  | some x =>
      if x ≤ 0 then none
      else if x ≤ 30 then some "Very Low"
      else if x ≤ 60 then some "Low"
      else if x ≤ 90 then some "Medium"
      else if x ≤ 180 then some "High"
      else some "Very High"

/-- A customer row as the segmentation engine reads it; raw fields that may
be missing or unparseable are optional. -/
structure Customer where
  customer_id : ℕ
  total_orders : Option ℚ
  total_spent : Option ℚ
  days_since_last_order : Option ℚ
  avg_order_value : Option ℚ
deriving DecidableEq, Repr

/-- A segment-assignment row produced by the engine; the score fields are
optional because the degraded fallback writes only the segment column and the
EDA pipeline leaves missing scores undefined. -/
structure Assignment where
  customer_id : ℕ
  recency_score : Option ℚ
  frequency_score : Option ℚ
  monetary_score : Option ℚ
  rfm_score : Option ℚ
  segment : String
deriving DecidableEq, Repr

/-- One customer's row of the 30-dashboards RFM block: each dimension scored
with safe_quantile_cut over the whole population, coerced and defaulted to 3,
the composite score summed and mapped through get_rfm_segment. -/
def dash_row (recPop freqPop monPop : List (Option ℚ)) (c : Customer) : Assignment :=
  let r := dash_score recPop [5, 4, 3, 2, 1] c.days_since_last_order
  let f := dash_score freqPop [1, 2, 3, 4, 5] c.total_orders
  let m := dash_score monPop [1, 2, 3, 4, 5] c.total_spent
  { customer_id := c.customer_id, recency_score := some r, frequency_score := some f,
    monetary_score := some m, rfm_score := some (r + f + m),
    segment := get_rfm_segment (some (r + f + m)) }

/-- The normal path of the 30-dashboards RFM block over the whole customer
table. -/
def rfm_assign (customers : List Customer) : List Assignment :=
  customers.map (dash_row (customers.map (fun c => c.days_since_last_order))
    (customers.map (fun c => c.total_orders)) (customers.map (fun c => c.total_spent)))

/-- The row the dashboards except-branch builds for a customer: the original
row with the single default segment and no score columns. -/
def fallbackAssign (c : Customer) : Assignment :=
  { customer_id := c.customer_id, recency_score := none, frequency_score := none,
    monetary_score := none, rfm_score := none, segment := "Loyal Customers" }

/-- The try/except around the whole 30-dashboards RFM calculation: a
successful scoring attempt is returned unchanged, and any exception makes the
block rebuild the table from the customer list with the single default
segment Loyal Customers. -/
def rfm_data_result (customers : List Customer) (attempt : Except String (List Assignment)) :
    List Assignment :=
  match attempt with
  | Except.ok a => a
  | Except.error _ => customers.map fallbackAssign

/-- True when the EDA qcut call for a dimension would raise: at least five
distinct clean values select the qcut path, yet dropping duplicate edges
leaves a bin count that no longer matches the label list. -/
def eda_dim_fails (data : List (Option ℚ)) (labels : List ℕ) : Bool :=
  let clean := data.filterMap id
  decide (5 ≤ nuniqueQ clean) && !(decide ((dedupSorted (qcutEdges clean)).length = labels.length + 1))

/-- The EDA per-value dimension cut when no exception occurs: qcut over
quintiles with at least five distinct clean values, an equal-width cut
otherwise; missing values stay missing (there is no fillna in this pipeline). -/
def eda_dim_cut (data : List (Option ℚ)) (labels : List ℕ) (v : Option ℚ) : Option ℕ :=
  let clean := data.filterMap id
  if 5 ≤ nuniqueQ clean then applyCut (dedupSorted (qcutEdges clean)) true labels v
  else applyCut (cutEdges clean labels.length) false labels v

/-- One customer's row of the EDA RFM block: scores per dimension with no
neutral default, the composite undefined as soon as one dimension score is
undefined, and the segment from the EDA threshold list. -/
def eda_row (recPop freqPop monPop : List (Option ℚ)) (c : Customer) : Assignment :=
  let r := (eda_dim_cut recPop [5, 4, 3, 2, 1] c.days_since_last_order).map (fun n : ℕ => (n : ℚ))
  let f := (eda_dim_cut freqPop [1, 2, 3, 4, 5] c.total_orders).map (fun n : ℕ => (n : ℚ))
  let m := (eda_dim_cut monPop [1, 2, 3, 4, 5] c.total_spent).map (fun n : ℕ => (n : ℚ))
  let score := match r, f, m with
    | some x, some y, some z => some (x + y + z)
    | _, _, _ => none
  { customer_id := c.customer_id, recency_score := r, frequency_score := f,
    monetary_score := m, rfm_score := score, segment := get_rfm_segment_eda score }

/-- The EDA RFM pipeline over the whole customer table; a qcut exception in
any dimension escapes the block as an error. -/
def eda_rfm_assign (customers : List Customer) : Except Unit (List Assignment) :=
  if eda_dim_fails (customers.map (fun c => c.days_since_last_order)) [5, 4, 3, 2, 1] ||
      eda_dim_fails (customers.map (fun c => c.total_orders)) [1, 2, 3, 4, 5] ||
      eda_dim_fails (customers.map (fun c => c.total_spent)) [1, 2, 3, 4, 5] then
    Except.error ()
  else
    Except.ok (customers.map (eda_row (customers.map (fun c => c.days_since_last_order))
      (customers.map (fun c => c.total_orders)) (customers.map (fun c => c.total_spent))))

/-- The demo customer with a missing recency value. -/
def cust3 : Customer :=
  { customer_id := 3, total_orders := some 3, total_spent := some 3,
    days_since_last_order := none, avg_order_value := some 3 }

/-- Demo population: three customers with fewer than five distinct values per
dimension, the third with a missing recency value. -/
def edaDemo : List Customer :=
  [{ customer_id := 1, total_orders := some 1, total_spent := some 1,
     days_since_last_order := some 1, avg_order_value := some 1 },
   { customer_id := 2, total_orders := some 2, total_spent := some 2,
     days_since_last_order := some 2, avg_order_value := some 2 },
   cust3]

/-- A transaction row as the retention builder reads it: the order date
parsed with coercion to missing on failure, represented as a calendar month
index together with a day-of-month so that whole-month elapsed periods are
month-index differences; the customer id may be null. -/
structure Transaction where
  transaction_id : ℕ
  customer_id : Option ℕ
  order_date : Option (ℤ × ℤ)
deriving DecidableEq, Repr

/-- Date order: strictly earlier month, or the same month and a not-later
day. -/
def dateLe (a b : ℤ × ℤ) : Prop := a.1 < b.1 ∨ (a.1 = b.1 ∧ a.2 ≤ b.2)

instance : DecidableRel dateLe := fun a b => by unfold dateLe; infer_instance

/-- The transaction rows surviving the date and customer filters, as pairs of
customer id and order date. -/
def validTxs (txs : List Transaction) : List (ℕ × (ℤ × ℤ)) :=
  txs.filterMap (fun t => t.customer_id.bind (fun c => t.order_date.map (fun d => (c, d))))

/-- All order dates of one customer among the valid rows. -/
def datesOf (txs : List Transaction) (c : ℕ) : List (ℤ × ℤ) :=
  (validTxs txs).filterMap (fun p => if p.1 = c then some p.2 else none)

/-- The minimum of a date list, when the list is nonempty. -/
def minDateList : List (ℤ × ℤ) → Option (ℤ × ℤ)
  | [] => none
  | d :: rest => some (foldMinBy dateLe d rest)

/-- The first purchase date of a customer: the minimum order date over the
customer's valid transactions. -/
def firstDate (txs : List Transaction) (c : ℕ) : Option (ℤ × ℤ) :=
  minDateList (datesOf txs c)

/-- The cohort month of a customer: the calendar month of the first
purchase. -/
def firstMonth (txs : List Transaction) (c : ℕ) : Option ℤ :=
  (firstDate txs c).map (fun d => d.1)

/-- The distinct customers of cohort `m` active at elapsed period `t`. -/
def activeSet (txs : List Transaction) (m t : ℤ) : Finset ℕ :=
  (((validTxs txs).filter (fun p => decide (firstMonth txs p.1 = some m ∧ p.2.1 - m = t))).map
    (fun p => p.1)).toFinset

/-- The distinct-customer count of one retention-matrix cell. -/
def active_count (txs : List Transaction) (m t : ℤ) : ℕ := (activeSet txs m t).card

/-- The elapsed period of every valid row. -/
def elapsedList (txs : List Transaction) : List ℤ :=
  (validTxs txs).filterMap (fun p => (firstMonth txs p.1).map (fun f => p.2.1 - f))

/-- The minimum of an integer list, 0 on the empty list. -/
def minIntList : List ℤ → ℤ
  | [] => 0
  | e :: rest => foldMinBy (fun a b => a ≤ b) e rest

/-- The first column of the pivoted retention matrix: the smallest elapsed
period present in the data. -/
def colZero (txs : List Transaction) : ℤ := minIntList (elapsedList txs)

/-- One retention-rate cell: the cohort's active count at period `t` divided
by the same cohort's count in the matrix's first column, as a percentage. -/
def retention_rate (txs : List Transaction) (m t : ℤ) : ℚ :=
  (active_count txs m t : ℚ) / (active_count txs m (colZero txs) : ℚ) * 100

/-- Outcome of the retention builder: the explicit no-data report, or the
cells of the retention-rate matrix. -/
inductive RetentionOutcome where
  | noData : RetentionOutcome
  | matrixOf : List ((ℤ × ℤ) × ℚ) → RetentionOutcome
deriving DecidableEq, Repr

/-- The cohort months present in the data. -/
def cohortMonths (txs : List Transaction) : List ℤ :=
  ((validTxs txs).filterMap (fun p => firstMonth txs p.1)).dedup

/-- The elapsed-period columns present in the data. -/
def elapsedCols (txs : List Transaction) : List ℤ := (elapsedList txs).dedup

/-- The retention builder: an input with no valid rows reports no data
instead of raising; otherwise every (cohort, elapsed) cell of the pivoted
matrix is filled with its retention rate. -/
def retention_result (txs : List Transaction) : RetentionOutcome :=
  if validTxs txs = [] then RetentionOutcome.noData
  else RetentionOutcome.matrixOf
    (((cohortMonths txs).map (fun m =>
      (elapsedCols txs).map (fun t => ((m, t), retention_rate txs m t)))).flatten)

/-- Demo transactions: customer 7 first buys in month 600 and again in month
601, customer 8 buys once in month 600, and one row has a null customer id. -/
def retentionDemo : List Transaction :=
  [{ transaction_id := 1, customer_id := some 7, order_date := some (600, 5) },
   { transaction_id := 2, customer_id := some 7, order_date := some (601, 3) },
   { transaction_id := 3, customer_id := some 8, order_date := some (600, 20) },
   { transaction_id := 4, customer_id := none, order_date := some (600, 1) }]

/-- Demo transactions in which no row survives the filters: one null customer
id and one unparseable date. -/
def emptyDemo : List Transaction :=
  [{ transaction_id := 1, customer_id := none, order_date := some (600, 1) },
   { transaction_id := 2, customer_id := some 5, order_date := none }]

/-- A transaction row as the journey block reads it: an order timestamp on a
totally ordered time axis, the category and the order amount. -/
structure JourneyTx where
  transaction_id : ℕ
  customer_id : ℕ
  order_date : ℤ
  category : String
  final_amount_inr : ℚ
deriving DecidableEq, Repr

instance : Inhabited JourneyTx := ⟨⟨0, 0, 0, "", 0⟩⟩

/-- The strict lexicographic key order of the multi-column sort on
(customer_id, order_date). -/
def journeyLt (a b : JourneyTx) : Prop :=
  a.customer_id < b.customer_id ∨ (a.customer_id = b.customer_id ∧ a.order_date < b.order_date)

instance : DecidableRel journeyLt := fun a b => by unfold journeyLt; infer_instance

/-- The weak lexicographic key order on (customer_id, order_date). -/
def journeyLe (a b : JourneyTx) : Prop :=
  a.customer_id < b.customer_id ∨ (a.customer_id = b.customer_id ∧ a.order_date ≤ b.order_date)

/-- The journey table sorted by (customer_id, order_date); the multi-column
sort is stable, so ties keep the input row order. -/
def journeySorted (txs : List JourneyTx) : List JourneyTx := sortByLt journeyLt txs

/-- The sorted journey table with cumcount plus one: each row paired with one
more than the number of earlier rows of the same customer in the sorted
order. -/
def customer_sequence (txs : List JourneyTx) : List (JourneyTx × ℕ) :=
  let s := journeySorted txs
  (List.range s.length).map (fun i =>
    let t := s.getD i default
    (t, 1 + ((s.take i).filter (fun u => u.customer_id == t.customer_id)).length))

/-- The rows holding each customer's first purchase. -/
def first_purchase (txs : List JourneyTx) : List (JourneyTx × ℕ) :=
  (customer_sequence txs).filter (fun p => p.2 == 1)

/-- The rows holding each customer's second purchase. -/
def second_purchase (txs : List JourneyTx) : List (JourneyTx × ℕ) :=
  (customer_sequence txs).filter (fun p => p.2 == 2)

/-- Sum of a rational list. -/
def sumQ (l : List ℚ) : ℚ := l.foldl (fun a b => a + b) 0

/-- Mean order value per sequence position: group keys ascending as the
aggregation sorts them, then only positions up to 10 are kept. -/
def aov_by_sequence (txs : List JourneyTx) : List (ℕ × ℚ) :=
  let cs := customer_sequence txs
  let keys := sortByLt (fun a b : ℕ => a < b) (cs.map (fun p => p.2)).dedup
  (keys.map (fun s =>
    let g := (cs.filter (fun p => p.2 == s)).map (fun p => p.1.final_amount_inr)
    (s, sumQ g / (g.length : ℚ)))).filter (fun e => decide (e.1 ≤ 10))

/-- Demo journey table: two rows of one customer with the same order date,
appearing with the larger transaction id first. -/
def journeyDemo : List JourneyTx :=
  [{ transaction_id := 2, customer_id := 1, order_date := 100, category := "A",
     final_amount_inr := 10 },
   { transaction_id := 1, customer_id := 1, order_date := 100, category := "B",
     final_amount_inr := 20 }]

/-- Demo journey table with two rows of one customer on distinct dates. -/
def journeyDemo2 : List JourneyTx :=
  [{ transaction_id := 1, customer_id := 1, order_date := 100, category := "A",
     final_amount_inr := 10 },
   { transaction_id := 2, customer_id := 1, order_date := 200, category := "B",
     final_amount_inr := 20 }]

example : get_rfm_segment (some 13) = "Champions" := by decide
example : get_rfm_segment (some 5) = "Lost Customers" := by decide
example : get_rfm_segment_eda (some 5) = "At Risk" := by decide
example : churn_risk (some 0) = none := by decide
example : churn_risk (some 30) = some "Very Low" := by decide
example : churn_risk none = none := by decide
example : behavior_segment (some 500) = some "Budget" := by decide
example : behavior_segment none = none := by decide
example : dash_score [some 0, some 10, none] [5, 4, 3, 2, 1] (some 0) = 5 := by
  norm_num [dash_score, safe_quantile_cut, applyCut, cutEdges, minQ, maxQ, foldMinBy,
    linspace, List.range_succ, binOf, firstGE, List.filterMap_cons, List.foldl,
    Option.bind, Option.getD, List.get?]
example : dash_score [some 0, some 10, none] [5, 4, 3, 2, 1] (some 10) = 1 := by
  norm_num [dash_score, safe_quantile_cut, applyCut, cutEdges, minQ, maxQ, foldMinBy,
    linspace, List.range_succ, binOf, firstGE, List.filterMap_cons, List.foldl,
    Option.bind, Option.getD, List.get?]
example : dash_score [some 1, some 2, some 3, none] [5, 4, 3, 2, 1] none = 3 := by
  norm_num [dash_score, safe_quantile_cut, applyCut]

/-- C1 counterexample: the EDA implementation maps a composite score of 5 to
At Risk, not to Lost Customers as the fixed 13/10/8/6 first-match priority
list of the claim would demand of it. -/
theorem rfm_segment_eda_score5_cex :
    get_rfm_segment_eda (some 5) = "At Risk" ∧ get_rfm_segment_eda (some 5) ≠ "Lost Customers" :=
  ⟨by decide, by decide⟩

/-- C1 (amended): the 30-dashboards implementation assigns segments by
first-match priority 13/10/8/6 over the composite score, so 13 and 15 map to
Champions and 5 maps to Lost Customers, and an undefined composite maps to
Unknown; the EDA implementation instead uses the priority list 12/9/6/4,
under which 13 and 15 still map to Champions but 5 maps to At Risk. -/
theorem rfm_segment_priority :
    get_rfm_segment none = "Unknown" ∧
    get_rfm_segment_eda none = "Unknown" ∧
    (∀ s : ℚ, 13 ≤ s → get_rfm_segment (some s) = "Champions") ∧
    (∀ s : ℚ, 10 ≤ s → s < 13 → get_rfm_segment (some s) = "Loyal Customers") ∧
    (∀ s : ℚ, 8 ≤ s → s < 10 → get_rfm_segment (some s) = "Potential Loyalists") ∧
    (∀ s : ℚ, 6 ≤ s → s < 8 → get_rfm_segment (some s) = "At Risk") ∧
    (∀ s : ℚ, s < 6 → get_rfm_segment (some s) = "Lost Customers") ∧
    (∀ s : ℚ, 12 ≤ s → get_rfm_segment_eda (some s) = "Champions") ∧
    (∀ s : ℚ, 9 ≤ s → s < 12 → get_rfm_segment_eda (some s) = "Loyal Customers") ∧
    (∀ s : ℚ, 6 ≤ s → s < 9 → get_rfm_segment_eda (some s) = "Potential Loyalists") ∧
    (∀ s : ℚ, 4 ≤ s → s < 6 → get_rfm_segment_eda (some s) = "At Risk") ∧
    (∀ s : ℚ, s < 4 → get_rfm_segment_eda (some s) = "Lost Customers") := by
  refine ⟨rfl, rfl, ?_, ?_, ?_, ?_, ?_, ?_, ?_, ?_, ?_, ?_⟩
  · intro s h
    simp [get_rfm_segment, h]
  · intro s h1 h2
    simp [get_rfm_segment, h1, show ¬ (13 : ℚ) ≤ s by linarith]
  · intro s h1 h2
    simp [get_rfm_segment, h1, show ¬ (13 : ℚ) ≤ s by linarith,
      show ¬ (10 : ℚ) ≤ s by linarith]
  · intro s h1 h2
    simp [get_rfm_segment, h1, show ¬ (13 : ℚ) ≤ s by linarith,
      show ¬ (10 : ℚ) ≤ s by linarith, show ¬ (8 : ℚ) ≤ s by linarith]
  · intro s h
    simp [get_rfm_segment, show ¬ (13 : ℚ) ≤ s by linarith, show ¬ (10 : ℚ) ≤ s by linarith,
      show ¬ (8 : ℚ) ≤ s by linarith, show ¬ (6 : ℚ) ≤ s by linarith]
  · intro s h
    simp [get_rfm_segment_eda, h]
  · intro s h1 h2
    simp [get_rfm_segment_eda, h1, show ¬ (12 : ℚ) ≤ s by linarith]
  · intro s h1 h2
    simp [get_rfm_segment_eda, h1, show ¬ (12 : ℚ) ≤ s by linarith,
      show ¬ (9 : ℚ) ≤ s by linarith]
  · intro s h1 h2
    simp [get_rfm_segment_eda, h1, show ¬ (12 : ℚ) ≤ s by linarith,
      show ¬ (9 : ℚ) ≤ s by linarith, show ¬ (6 : ℚ) ≤ s by linarith]
  · intro s h
    simp [get_rfm_segment_eda, show ¬ (12 : ℚ) ≤ s by linarith, show ¬ (9 : ℚ) ≤ s by linarith,
      show ¬ (6 : ℚ) ≤ s by linarith, show ¬ (4 : ℚ) ≤ s by linarith]

/-- C1 witness: the priority lists applied at the concrete scores 13, 15 and
5 of the claim. -/
theorem rfm_segment_priority_witness :
    get_rfm_segment (some 13) = "Champions" ∧ get_rfm_segment (some 15) = "Champions" ∧
    get_rfm_segment (some 5) = "Lost Customers" ∧ get_rfm_segment_eda (some 15) = "Champions" := by
  obtain ⟨-, -, h13, -, -, -, h5, h12, -⟩ := rfm_segment_priority
  exact ⟨h13 13 (by norm_num), h13 15 (by norm_num), h5 5 (by norm_num), h12 15 (by norm_num)⟩

/-- C3 counterexample: the churn bins are left-open, so a customer with zero
days since the last order falls outside every bin and gets no churn label, and
a missing value is not replaced by 365 but stays unlabelled too. -/
theorem churn_risk_zero_missing_cex :
    churn_risk (some 0) = none ∧ churn_risk none = none ∧
    churn_risk (some 0) ≠ some "Very Low" ∧ churn_risk none ≠ some "Very High" :=
  ⟨by decide, by decide, by decide, by decide⟩

/-- C3 (amended): churn_risk bins the defined positive values of
days_since_last_order with right-closed intervals with edges 30, 60, 90 and
180, so a value of 30 falls in Very Low; but the binning is not total: a
value that is zero or negative falls outside the leftmost bin (0, 30] and
gets no label, and a missing value is not defaulted to 365, it also gets no
label rather than Very High. -/
theorem churn_risk_buckets :
    churn_risk none = none ∧
    (∀ d : ℚ, d ≤ 0 → churn_risk (some d) = none) ∧
    (∀ d : ℚ, 0 < d → d ≤ 30 → churn_risk (some d) = some "Very Low") ∧
    (∀ d : ℚ, 30 < d → d ≤ 60 → churn_risk (some d) = some "Low") ∧
    (∀ d : ℚ, 60 < d → d ≤ 90 → churn_risk (some d) = some "Medium") ∧
    (∀ d : ℚ, 90 < d → d ≤ 180 → churn_risk (some d) = some "High") ∧
    (∀ d : ℚ, 180 < d → churn_risk (some d) = some "Very High") := by
  refine ⟨rfl, ?_, ?_, ?_, ?_, ?_, ?_⟩
  · intro d h
    simp [churn_risk, h]
  · intro d h1 h2
    simp [churn_risk, h2, show ¬ d ≤ (0 : ℚ) by linarith]
  · intro d h1 h2
    simp [churn_risk, h2, show ¬ d ≤ (0 : ℚ) by linarith, show ¬ d ≤ (30 : ℚ) by linarith]
  · intro d h1 h2
    simp [churn_risk, h2, show ¬ d ≤ (0 : ℚ) by linarith, show ¬ d ≤ (30 : ℚ) by linarith,
      show ¬ d ≤ (60 : ℚ) by linarith]
  · intro d h1 h2
    simp [churn_risk, h2, show ¬ d ≤ (0 : ℚ) by linarith, show ¬ d ≤ (30 : ℚ) by linarith,
      show ¬ d ≤ (60 : ℚ) by linarith, show ¬ d ≤ (90 : ℚ) by linarith]
  · intro d h
    simp [churn_risk, show ¬ d ≤ (0 : ℚ) by linarith, show ¬ d ≤ (30 : ℚ) by linarith,
      show ¬ d ≤ (60 : ℚ) by linarith, show ¬ d ≤ (90 : ℚ) by linarith,
      show ¬ d ≤ (180 : ℚ) by linarith]

/-- C3 witness: the churn bins applied at the boundary value 30 and at 365. -/
theorem churn_risk_buckets_witness :
    churn_risk (some 30) = some "Very Low" ∧ churn_risk (some 365) = some "Very High" := by
  obtain ⟨-, -, hvl, -, -, -, hvh⟩ := churn_risk_buckets
  exact ⟨hvl 30 (by norm_num) (by norm_num), hvh 365 (by norm_num)⟩

/-- C4 counterexample: the behaviour bins are right-closed, so an average
order value of exactly 500 falls in Budget rather than Value, and a missing
average order value is filled with 0, which falls outside the leftmost bin
(0, 500] and gets no label rather than Budget. -/
theorem behavior_segment_500_cex :
    behavior_segment (some 500) = some "Budget" ∧ behavior_segment (some 500) ≠ some "Value" ∧
    behavior_segment none = none ∧ behavior_segment none ≠ some "Budget" :=
  ⟨by decide, by decide, by decide, by decide⟩

/-- C4 (amended): behavior_segment bins avg_order_value with right-closed
intervals (0, 500] Budget, (500, 1500] Value, (1500, 3000] Premium and
(3000, infinity) Luxury, so a value of exactly 500 falls in Budget and not in
Value; a missing value is treated as 0, which falls outside every bin and
yields no label. -/
theorem behavior_segment_buckets :
    (∀ a : ℚ, 0 < a → a ≤ 500 → behavior_segment (some a) = some "Budget") ∧
    (∀ a : ℚ, 500 < a → a ≤ 1500 → behavior_segment (some a) = some "Value") ∧
    (∀ a : ℚ, 1500 < a → a ≤ 3000 → behavior_segment (some a) = some "Premium") ∧
    (∀ a : ℚ, 3000 < a → behavior_segment (some a) = some "Luxury") ∧
    (∀ a : ℚ, a ≤ 0 → behavior_segment (some a) = none) ∧
    behavior_segment none = none := by
  refine ⟨?_, ?_, ?_, ?_, ?_, rfl⟩
  · intro a h1 h2
    simp [behavior_segment, h2, show ¬ a ≤ (0 : ℚ) by linarith]
  · intro a h1 h2
    simp [behavior_segment, h2, show ¬ a ≤ (0 : ℚ) by linarith,
      show ¬ a ≤ (500 : ℚ) by linarith]
  · intro a h1 h2
    simp [behavior_segment, h2, show ¬ a ≤ (0 : ℚ) by linarith,
      show ¬ a ≤ (500 : ℚ) by linarith, show ¬ a ≤ (1500 : ℚ) by linarith]
  · intro a h
    simp [behavior_segment, show ¬ a ≤ (0 : ℚ) by linarith, show ¬ a ≤ (500 : ℚ) by linarith,
      show ¬ a ≤ (1500 : ℚ) by linarith, show ¬ a ≤ (3000 : ℚ) by linarith]
  · intro a h
    simp [behavior_segment, h]

/-- C4 witness: the behaviour bins applied at the boundary value 500 and at
501. -/
theorem behavior_segment_buckets_witness :
    behavior_segment (some 500) = some "Budget" ∧ behavior_segment (some 501) = some "Value" := by
  obtain ⟨hb, hv, -⟩ := behavior_segment_buckets
  exact ⟨hb 500 (by norm_num) (by norm_num), hv 501 (by norm_num) (by norm_num)⟩

/-- C6: when the RFM scoring attempt raises, the except branch returns a row
for every input customer, each carrying the single default segment Loyal
Customers, instead of propagating the exception. -/
theorem rfm_error_fallback (customers : List Customer) (msg : String) :
    (rfm_data_result customers (Except.error msg)).map (fun a => a.customer_id) =
      customers.map (fun c => c.customer_id) ∧
    (rfm_data_result customers (Except.error msg)).length = customers.length ∧
    ∀ a ∈ rfm_data_result customers (Except.error msg), a.segment = "Loyal Customers" := by
  refine ⟨?_, ?_, ?_⟩
  · simp [rfm_data_result, fallbackAssign, List.map_map, Function.comp]
  · simp [rfm_data_result]
  · intro a ha
    simp only [rfm_data_result, List.mem_map] at ha
    obtain ⟨c, -, rfl⟩ := ha
    rfl

/-- A missing value is never assigned a bin or a label. -/
theorem applyCut_missing (edges : List ℚ) (incLow : Bool) (labels : List ℕ) :
    applyCut edges incLow labels none = none := rfl

/-- In the 30-dashboards pipeline a missing raw value scores the neutral
default 3 on any dimension. -/
theorem dash_score_missing (data : List (Option ℚ)) (labels : List ℕ) :
    dash_score data labels none = 3 := by
  simp [dash_score, safe_quantile_cut, applyCut_missing]

/-- In the EDA pipeline a missing raw value keeps an undefined bin. -/
theorem eda_dim_cut_missing (data : List (Option ℚ)) (labels : List ℕ) :
    eda_dim_cut data labels none = none := by
  simp [eda_dim_cut, applyCut_missing]

/-- A 30-dashboards row of a customer with missing recency carries the
default recency score 3. -/
theorem dash_row_missing_recency (recPop freqPop monPop : List (Option ℚ)) (c : Customer)
    (h : c.days_since_last_order = none) :
    (dash_row recPop freqPop monPop c).recency_score = some 3 := by
  simp [dash_row, h, dash_score_missing]

/-- An EDA row of a customer with missing recency carries an undefined
recency score and the segment Unknown. -/
theorem eda_row_missing_recency (recPop freqPop monPop : List (Option ℚ)) (c : Customer)
    (h : c.days_since_last_order = none) :
    (eda_row recPop freqPop monPop c).recency_score = none ∧
      (eda_row recPop freqPop monPop c).segment = "Unknown" := by
  constructor
  · simp [eda_row, h, eda_dim_cut_missing]
  · simp [eda_row, h, eda_dim_cut_missing, get_rfm_segment_eda]

/-- A successful EDA run returns exactly the mapped rows. -/
theorem eda_rfm_assign_ok (customers : List Customer) (asg : List Assignment)
    (hok : eda_rfm_assign customers = Except.ok asg) :
    asg = customers.map (eda_row (customers.map (fun c => c.days_since_last_order))
      (customers.map (fun c => c.total_orders)) (customers.map (fun c => c.total_spent))) := by
  unfold eda_rfm_assign at hok
  split at hok
  · exact absurd hok (by simp)
  · injection hok with h
    exact h.symm

/-- When no dimension fails, the EDA run succeeds with the mapped rows. -/
theorem eda_rfm_assign_of_not_fails (customers : List Customer)
    (h : (eda_dim_fails (customers.map (fun c => c.days_since_last_order)) [5, 4, 3, 2, 1] ||
      eda_dim_fails (customers.map (fun c => c.total_orders)) [1, 2, 3, 4, 5] ||
      eda_dim_fails (customers.map (fun c => c.total_spent)) [1, 2, 3, 4, 5]) = false) :
    eda_rfm_assign customers =
      Except.ok (customers.map (eda_row (customers.map (fun c => c.days_since_last_order))
        (customers.map (fun c => c.total_orders)) (customers.map (fun c => c.total_spent)))) := by
  unfold eda_rfm_assign
  rw [if_neg]
  simp [h]

/-- C2 (amended): in the 30-dashboards pipeline a customer whose raw value
for a dimension is missing, or whose bin label is not coercible, receives the
neutral default score 3 for that dimension and still appears in the output
with a full SegmentAssignment; in the EDA pipeline such a customer also still
appears and is not dropped, but the missing dimension score stays undefined —
there is no fillna there — so the composite is undefined and the segment
becomes Unknown rather than the dimension defaulting to 3. -/
theorem missing_value_neutral_default :
    (∀ data labels, dash_score data labels none = 3) ∧
    (∀ customers : List Customer,
      (rfm_assign customers).map (fun a => a.customer_id) =
        customers.map (fun c => c.customer_id)) ∧
    (∀ customers : List Customer, ∀ c ∈ customers, c.days_since_last_order = none →
      ∃ a ∈ rfm_assign customers, a.customer_id = c.customer_id ∧ a.recency_score = some 3) ∧
    (∀ customers asg, eda_rfm_assign customers = Except.ok asg →
      ∀ c ∈ customers, c.days_since_last_order = none →
        ∃ a ∈ asg, a.customer_id = c.customer_id ∧ a.recency_score = none ∧
          a.segment = "Unknown") := by
  refine ⟨dash_score_missing, ?_, ?_, ?_⟩
  · intro customers
    simp [rfm_assign, List.map_map, Function.comp, dash_row]
  · intro customers c hc hnone
    exact ⟨_, List.mem_map_of_mem _ hc, rfl, dash_row_missing_recency _ _ _ c hnone⟩
  · intro customers asg hok c hc hnone
    have hasg := eda_rfm_assign_ok customers asg hok
    subst hasg
    exact ⟨_, List.mem_map_of_mem _ hc, rfl, (eda_row_missing_recency _ _ _ c hnone).1,
      (eda_row_missing_recency _ _ _ c hnone).2⟩

/-- C2 witness: in the demo population the customer with the missing recency
value keeps a row with the default recency score 3 under the 30-dashboards
pipeline. -/
theorem missing_value_neutral_default_witness :
    ∃ a ∈ rfm_assign edaDemo, a.customer_id = 3 ∧ a.recency_score = some 3 := by
  obtain ⟨-, -, h, -⟩ := missing_value_neutral_default
  exact h edaDemo cust3 (by simp [edaDemo]) rfl

/-- C2 counterexample: on the demo population the EDA pipeline succeeds, yet
the customer with the missing recency value receives an undefined recency
score and the segment Unknown, not the neutral default score 3 the claim
asserts. -/
theorem eda_missing_score_cex :
    ∃ asg, eda_rfm_assign edaDemo = Except.ok asg ∧
      ∃ a ∈ asg, a.customer_id = 3 ∧ a.recency_score = none ∧ a.recency_score ≠ some 3 ∧
        a.segment = "Unknown" := by
  have hguard : (eda_dim_fails (edaDemo.map (fun c => c.days_since_last_order)) [5, 4, 3, 2, 1] ||
      eda_dim_fails (edaDemo.map (fun c => c.total_orders)) [1, 2, 3, 4, 5] ||
      eda_dim_fails (edaDemo.map (fun c => c.total_spent)) [1, 2, 3, 4, 5]) = false := by decide
  have hc : cust3 ∈ edaDemo := by simp [edaDemo]
  refine ⟨_, eda_rfm_assign_of_not_fails edaDemo hguard,
    _, List.mem_map_of_mem _ hc, rfl, ?_, ?_, ?_⟩
  · exact (eda_row_missing_recency _ _ _ _ rfl).1
  · rw [(eda_row_missing_recency _ _ _ _ rfl).1]
    simp
  · exact (eda_row_missing_recency _ _ _ _ rfl).2

/-- The fold-minimum is the seed or a member of the list. -/
theorem foldMinBy_mem_or {α : Type} (le : α → α → Prop) [DecidableRel le] (d : α) (l : List α) :
    foldMinBy le d l = d ∨ foldMinBy le d l ∈ l := by
  induction l generalizing d with
  | nil => exact Or.inl rfl
  | cons x xs ih =>
    have h : foldMinBy le d (x :: xs) = foldMinBy le (if le x d then x else d) xs := rfl
    rw [h]
    rcases ih (if le x d then x else d) with h1 | h1
    · rw [h1]
      by_cases hx : le x d
      · rw [if_pos hx]
        exact Or.inr (List.mem_cons_self x xs)
      · rw [if_neg hx]
        exact Or.inl rfl
    · exact Or.inr (List.mem_cons_of_mem x h1)

/-- For a transitive, total, reflexive comparison the fold-minimum is below
the seed and below every member. -/
theorem foldMinBy_le {α : Type} (le : α → α → Prop) [DecidableRel le]
    (htrans : ∀ a b c, le a b → le b c → le a c)
    (htotal : ∀ a b, ¬ le a b → le b a)
    (hrefl : ∀ a, le a a) (d : α) (l : List α) :
    le (foldMinBy le d l) d ∧ ∀ x ∈ l, le (foldMinBy le d l) x := by
  induction l generalizing d with
  | nil => exact ⟨hrefl d, by simp⟩
  | cons x xs ih =>
    have h : foldMinBy le d (x :: xs) = foldMinBy le (if le x d then x else d) xs := rfl
    by_cases hx : le x d
    · rw [h, if_pos hx]
      obtain ⟨h1, h2⟩ := ih x
      refine ⟨htrans _ _ _ h1 hx, ?_⟩
      intro y hy
      rcases List.mem_cons.mp hy with rfl | hy
      · exact h1
      · exact h2 y hy
    · rw [h, if_neg hx]
      obtain ⟨h1, h2⟩ := ih d
      refine ⟨h1, ?_⟩
      intro y hy
      rcases List.mem_cons.mp hy with rfl | hy
      · exact htrans _ _ _ h1 (htotal _ _ hx)
      · exact h2 y hy

/-- Date order is reflexive. -/
theorem dateLe_refl : ∀ a : ℤ × ℤ, dateLe a a := by
  intro a
  unfold dateLe
  omega

/-- Date order is transitive. -/
theorem dateLe_trans : ∀ a b c : ℤ × ℤ, dateLe a b → dateLe b c → dateLe a c := by
  intro a b c h1 h2
  unfold dateLe at *
  omega

/-- Date order is total. -/
theorem dateLe_total : ∀ a b : ℤ × ℤ, ¬ dateLe a b → dateLe b a := by
  intro a b h
  unfold dateLe at *
  omega

/-- A date belongs to a customer's date list exactly when the corresponding
pair is a valid row. -/
theorem mem_datesOf (txs : List Transaction) (c : ℕ) (d : ℤ × ℤ) :
    d ∈ datesOf txs c ↔ (c, d) ∈ validTxs txs := by
  simp only [datesOf, List.mem_filterMap]
  constructor
  · rintro ⟨p, hp, he⟩
    obtain ⟨p1, p2⟩ := p
    by_cases h : p1 = c
    · subst h
      rw [if_pos rfl] at he
      injection he with he
      subst he
      exact hp
    · rw [if_neg h] at he
      exact absurd he (by simp)
  · intro h
    exact ⟨(c, d), h, by simp⟩

/-- The minimum of a nonempty date list exists, is a member and is below
every member. -/
theorem minDateList_spec (l : List (ℤ × ℤ)) (d : ℤ × ℤ) (h : minDateList l = some d) :
    d ∈ l ∧ ∀ x ∈ l, dateLe d x := by
  cases l with
  | nil => exact absurd h (by simp [minDateList])
  | cons d0 rest =>
    simp only [minDateList] at h
    injection h with h
    subst h
    have hm := foldMinBy_mem_or dateLe d0 rest
    have hl := foldMinBy_le dateLe dateLe_trans dateLe_total dateLe_refl d0 rest
    constructor
    · rcases hm with h1 | h1
      · rw [h1]
        exact List.mem_cons_self _ _
      · exact List.mem_cons_of_mem _ h1
    · intro x hx
      rcases List.mem_cons.mp hx with rfl | hx
      · exact hl.1
      · exact hl.2 x hx

/-- The first purchase date is one of the customer's dates and is below all
of them. -/
theorem firstDate_spec (txs : List Transaction) (c : ℕ) (d : ℤ × ℤ)
    (h : firstDate txs c = some d) :
    d ∈ datesOf txs c ∧ ∀ x ∈ datesOf txs c, dateLe d x := by
  unfold firstDate at h
  exact minDateList_spec _ _ h

/-- A defined cohort month comes with a first date achieving it. -/
theorem firstMonth_some (txs : List Transaction) (c : ℕ) (m : ℤ)
    (h : firstMonth txs c = some m) :
    ∃ d, firstDate txs c = some d ∧ d.1 = m := by
  unfold firstMonth at h
  cases hd : firstDate txs c with
  | none => rw [hd] at h; exact absurd h (by simp)
  | some d =>
    rw [hd] at h
    injection h with h
    exact ⟨d, rfl, h⟩

/-- A customer with a defined cohort month contributes a valid row, so the
valid rows are nonempty. -/
theorem validTxs_ne_of_firstMonth (txs : List Transaction) (c : ℕ) (m : ℤ)
    (h : firstMonth txs c = some m) : validTxs txs ≠ [] := by
  obtain ⟨d, hd, -⟩ := firstMonth_some txs c m h
  exact List.ne_nil_of_mem ((mem_datesOf txs c d).mp (firstDate_spec txs c d hd).1)

/-- Membership in one cell's distinct-customer set. -/
theorem mem_activeSet (txs : List Transaction) (m t : ℤ) (x : ℕ) :
    x ∈ activeSet txs m t ↔
      ∃ d, (x, d) ∈ validTxs txs ∧ firstMonth txs x = some m ∧ d.1 - m = t := by
  simp only [activeSet, List.mem_toFinset, List.mem_map, List.mem_filter, decide_eq_true_eq]
  constructor
  · rintro ⟨p, ⟨hp, hfm, hel⟩, rfl⟩
    exact ⟨p.2, hp, hfm, hel⟩
  · rintro ⟨d, hd, hfm, hel⟩
    exact ⟨(x, d), ⟨hd, hfm, hel⟩, rfl⟩

/-- Every customer of cohort `m` is active at elapsed period 0: the first
transaction itself lies in the cohort month. -/
theorem mem_activeSet_zero (txs : List Transaction) (c : ℕ) (m : ℤ)
    (h : firstMonth txs c = some m) : c ∈ activeSet txs m 0 := by
  obtain ⟨d, hd, hm⟩ := firstMonth_some txs c m h
  refine (mem_activeSet txs m 0 c).mpr ⟨d, ?_, h, by omega⟩
  exact (mem_datesOf txs c d).mp (firstDate_spec txs c d hd).1

/-- A cohort's active set at any elapsed period is contained in its active
set at period 0. -/
theorem activeSet_subset_zero (txs : List Transaction) (m t : ℤ) :
    activeSet txs m t ⊆ activeSet txs m 0 := by
  intro x hx
  obtain ⟨d, -, hfm, -⟩ := (mem_activeSet txs m t x).mp hx
  exact mem_activeSet_zero txs x m hfm

/-- Membership in the elapsed-period list. -/
theorem mem_elapsedList (txs : List Transaction) (e : ℤ) :
    e ∈ elapsedList txs ↔
      ∃ p ∈ validTxs txs, ∃ f, firstMonth txs p.1 = some f ∧ e = p.2.1 - f := by
  simp only [elapsedList, List.mem_filterMap, Option.map_eq_some']
  constructor
  · rintro ⟨p, hp, f, hf, he⟩
    exact ⟨p, hp, f, hf, he.symm⟩
  · rintro ⟨p, hp, f, hf, he⟩
    exact ⟨p, hp, f, hf, he.symm⟩

/-- Every elapsed period is nonnegative: a transaction's month is never
before the customer's first-purchase month. -/
theorem elapsedList_nonneg (txs : List Transaction) (e : ℤ) (he : e ∈ elapsedList txs) :
    0 ≤ e := by
  obtain ⟨p, hp, f, hf, he⟩ := (mem_elapsedList txs e).mp he
  obtain ⟨d, hd, hm⟩ := firstMonth_some txs p.1 f hf
  have hmem : p.2 ∈ datesOf txs p.1 := (mem_datesOf txs p.1 p.2).mpr hp
  have := (firstDate_spec txs p.1 d hd).2 p.2 hmem
  unfold dateLe at this
  omega

/-- When any valid row exists, elapsed period 0 occurs in the data. -/
theorem zero_mem_elapsedList (txs : List Transaction) (hne : validTxs txs ≠ []) :
    (0 : ℤ) ∈ elapsedList txs := by
  obtain ⟨p, hp⟩ := List.exists_mem_of_ne_nil _ hne
  have hmem : p.2 ∈ datesOf txs p.1 := (mem_datesOf txs p.1 p.2).mpr hp
  have hdne : datesOf txs p.1 ≠ [] := List.ne_nil_of_mem hmem
  obtain ⟨d, hd⟩ : ∃ d, firstDate txs p.1 = some d := by
    unfold firstDate
    cases hE : datesOf txs p.1 with
    | nil => exact absurd hE hdne
    | cons d0 rest => exact ⟨_, rfl⟩
  refine (mem_elapsedList txs 0).mpr ⟨(p.1, d), ?_, d.1, ?_, by simp⟩
  · exact (mem_datesOf txs p.1 d).mp (firstDate_spec txs p.1 d hd).1
  · unfold firstMonth
    rw [hd]
    rfl

/-- With at least one valid row the first pivot column is elapsed period 0. -/
theorem colZero_eq_zero (txs : List Transaction) (hne : validTxs txs ≠ []) :
    colZero txs = 0 := by
  have h0 : (0 : ℤ) ∈ elapsedList txs := zero_mem_elapsedList txs hne
  unfold colZero
  cases hE : elapsedList txs with
  | nil => rw [hE] at h0; exact absurd h0 (by simp)
  | cons e rest =>
    simp only [minIntList]
    have hl := foldMinBy_le (fun a b : ℤ => a ≤ b) (fun a b c h1 h2 => le_trans h1 h2)
      (fun a b h => le_of_not_le h) (fun a => le_refl a) e rest
    have hmem := foldMinBy_mem_or (fun a b : ℤ => a ≤ b) e rest
    have hub : foldMinBy (fun a b : ℤ => a ≤ b) e rest ≤ 0 := by
      rw [hE] at h0
      rcases List.mem_cons.mp h0 with h0 | h0
      · have := hl.1
        omega
      · exact hl.2 0 h0
    have hlb : 0 ≤ foldMinBy (fun a b : ℤ => a ≤ b) e rest := by
      rcases hmem with h1 | h1
      · rw [h1]
        exact elapsedList_nonneg txs e (by rw [hE]; exact List.mem_cons_self _ _)
      · exact elapsedList_nonneg txs _ (by rw [hE]; exact List.mem_cons_of_mem _ h1)
    omega

/-- A nonempty cohort has a positive month 0 count. -/
theorem active_count_zero_pos (txs : List Transaction) (m : ℤ)
    (h : ∃ c, firstMonth txs c = some m) : 0 < active_count txs m 0 := by
  obtain ⟨c, hc⟩ := h
  exact Finset.card_pos.mpr ⟨c, mem_activeSet_zero txs c m hc⟩

/-- C5: every cohort that has at least one member retains exactly 100
percent at elapsed period 0: the matrix's first column is the elapsed-0
column, and its cell is divided by itself. -/
theorem retention_month0_100 (txs : List Transaction) (m : ℤ)
    (h : ∃ c, firstMonth txs c = some m) : retention_rate txs m 0 = 100 := by
  obtain ⟨c, hc⟩ := h
  have hne : validTxs txs ≠ [] := validTxs_ne_of_firstMonth txs c m hc
  have hpos : 0 < active_count txs m 0 := active_count_zero_pos txs m ⟨c, hc⟩
  have hcast : (active_count txs m 0 : ℚ) ≠ 0 := by
    have : active_count txs m 0 ≠ 0 := by omega
    exact_mod_cast this
  rw [retention_rate, colZero_eq_zero txs hne, div_self hcast, one_mul]

/-- C5 witness: the demo cohort of month 600 has members, and its rate at
elapsed period 0 is exactly 100. -/
theorem retention_month0_100_witness : retention_rate retentionDemo 600 0 = 100 :=
  retention_month0_100 retentionDemo 600 ⟨7, by decide⟩

/-- C10: no cell of the retention-rate matrix exceeds 100 percent: a
cohort's active set at any elapsed period is contained in its month 0 set,
whose count is the denominator. -/
theorem retention_rate_le_100 (txs : List Transaction) (m t : ℤ)
    (h : ∃ c, firstMonth txs c = some m) : retention_rate txs m t ≤ 100 := by
  obtain ⟨c, hc⟩ := h
  have hne : validTxs txs ≠ [] := validTxs_ne_of_firstMonth txs c m hc
  have hle : active_count txs m t ≤ active_count txs m 0 :=
    Finset.card_le_card (activeSet_subset_zero txs m t)
  have h1 : (active_count txs m t : ℚ) / (active_count txs m 0 : ℚ) ≤ 1 :=
    div_le_one_of_le₀ (by exact_mod_cast hle) (by positivity)
  rw [retention_rate, colZero_eq_zero txs hne]
  calc (active_count txs m t : ℚ) / (active_count txs m 0 : ℚ) * 100 ≤ 1 * 100 :=
        mul_le_mul_of_nonneg_right h1 (by norm_num)
    _ = 100 := one_mul 100

/-- C10 witness: in the demo data every cell of the month 600 cohort stays at
or below 100, shown at elapsed period 1. -/
theorem retention_rate_le_100_witness : retention_rate retentionDemo 600 1 ≤ 100 :=
  retention_rate_le_100 retentionDemo 600 1 ⟨7, by decide⟩

/-- C9: with no valid transaction rows left after filtering, the retention
builder reports the explicit no-data outcome and never builds a matrix. -/
theorem retention_no_data (txs : List Transaction) (h : validTxs txs = []) :
    retention_result txs = RetentionOutcome.noData ∧
      ∀ cells, retention_result txs ≠ RetentionOutcome.matrixOf cells := by
  constructor
  · simp [retention_result, h]
  · intro cells
    simp [retention_result, h]

/-- C9 witness: the demo input whose rows all fail the filters reports no
data. -/
theorem retention_no_data_witness :
    retention_result emptyDemo = RetentionOutcome.noData ∧
      ∀ cells, retention_result emptyDemo ≠ RetentionOutcome.matrixOf cells :=
  retention_no_data emptyDemo (by decide)

/-- A smaller value is never assigned a later upper edge. -/
theorem firstGE_mono (v1 v2 : ℚ) (h : v1 ≤ v2) (l : List ℚ) (j : ℕ)
    (hj : firstGE v2 l = some j) : ∃ i, firstGE v1 l = some i ∧ i ≤ j := by
  induction l generalizing j with
  | nil => simp [firstGE] at hj
  | cons e rest ih =>
    simp only [firstGE] at hj ⊢
    by_cases h2 : v2 ≤ e
    · rw [if_pos h2] at hj
      rw [if_pos (le_trans h h2)]
      exact ⟨0, rfl, by omega⟩
    · rw [if_neg h2] at hj
      by_cases h1 : v1 ≤ e
      · rw [if_pos h1]
        exact ⟨0, rfl, by omega⟩
      · rw [if_neg h1]
        obtain ⟨j', hj', hjj⟩ := Option.map_eq_some'.mp hj
        obtain ⟨i, hi, hle⟩ := ih j' hj'
        exact ⟨i + 1, by rw [hi]; rfl, by omega⟩

/-- The upper-edge search succeeds as soon as some edge is large enough, with
an index inside the list. -/
theorem firstGE_isSome (v : ℚ) (l : List ℚ) (hex : ∃ e ∈ l, v ≤ e) :
    ∃ i, firstGE v l = some i ∧ i < l.length := by
  induction l with
  | nil => simp at hex
  | cons e rest ih =>
    simp only [firstGE]
    by_cases h : v ≤ e
    · rw [if_pos h]
      exact ⟨0, rfl, by simp⟩
    · rw [if_neg h]
      obtain ⟨e1, he1, hve⟩ := hex
      rcases List.mem_cons.mp he1 with rfl | he1
      · exact absurd hve h
      · obtain ⟨i, hi, hlen⟩ := ih ⟨e1, he1, hve⟩
        exact ⟨i + 1, by rw [hi]; rfl, by simp only [List.length_cons]; omega⟩

/-- Bin assignment is monotone in the value, for any edge list. -/
theorem binOf_mono (edges : List ℚ) (incLow : Bool) (v1 v2 : ℚ) (h : v1 < v2)
    (i j : ℕ) (h1 : binOf edges incLow v1 = some i) (h2 : binOf edges incLow v2 = some j) :
    i ≤ j := by
  cases edges with
  | nil => simp [binOf] at h1
  | cons e0 rest =>
    simp only [binOf] at h1 h2
    by_cases hc1 : incLow = true ∧ v1 = e0
    · rw [if_pos hc1] at h1
      by_cases hr : rest = []
      · rw [if_pos hr] at h1
        exact absurd h1 (by simp)
      · rw [if_neg hr] at h1
        injection h1 with h1
        omega
    · rw [if_neg hc1] at h1
      by_cases hc2 : incLow = true ∧ v2 = e0
      · have hv1 : v1 ≤ e0 := by
          rcases hc2 with ⟨-, he⟩
          rw [← he]
          exact le_of_lt h
        rw [if_pos hv1] at h1
        exact absurd h1 (by simp)
      · rw [if_neg hc2] at h2
        by_cases hv1 : v1 ≤ e0
        · rw [if_pos hv1] at h1
          exact absurd h1 (by simp)
        · rw [if_neg hv1] at h1
          have hv2 : ¬ v2 ≤ e0 := by
            have := not_le.mp hv1
            intro hcon
            linarith
          rw [if_neg hv2] at h2
          obtain ⟨i1, hi1, hle⟩ := firstGE_mono v1 v2 (le_of_lt h) rest j h2
          rw [h1] at hi1
          injection hi1 with hi1
          omega

/-- A value strictly above the first edge and below some later edge is
assigned a bin inside the edge list. -/
theorem binOf_some_of_lt (e0 : ℚ) (rest : List ℚ) (incLow : Bool) (v : ℚ)
    (h0 : e0 < v) (hex : ∃ e ∈ rest, v ≤ e) :
    ∃ i, binOf (e0 :: rest) incLow v = some i ∧ i < rest.length := by
  obtain ⟨i, hi, hlen⟩ := firstGE_isSome v rest hex
  refine ⟨i, ?_, hlen⟩
  simp only [binOf]
  rw [if_neg, if_neg (not_le.mpr h0)]
  · exact hi
  · rintro ⟨-, rfl⟩
    exact lt_irrefl v h0

/-- With include-lowest, the value equal to the first edge lands in bin 0. -/
theorem binOf_some_of_eq (e0 : ℚ) (rest : List ℚ) (v : ℚ) (he : v = e0) (hne : rest ≠ []) :
    binOf (e0 :: rest) true v = some 0 := by
  subst he
  simp [binOf, hne]

/-- The population minimum is below every member. -/
theorem minQ_le (c : ℚ) (cs : List ℚ) (v : ℚ) (hv : v ∈ c :: cs) : minQ (c :: cs) ≤ v := by
  have hl := foldMinBy_le (fun a b : ℚ => a ≤ b) (fun a b c h1 h2 => le_trans h1 h2)
    (fun a b h => le_of_not_le h) (fun a => le_refl a) c cs
  rcases List.mem_cons.mp hv with rfl | hv
  · exact hl.1
  · exact hl.2 v hv

/-- The population maximum is above every member. -/
theorem le_maxQ (c : ℚ) (cs : List ℚ) (v : ℚ) (hv : v ∈ c :: cs) : v ≤ maxQ (c :: cs) := by
  have hl := foldMinBy_le (fun a b : ℚ => b ≤ a) (fun a b c h1 h2 => le_trans h2 h1)
    (fun a b h => le_of_not_le h) (fun a => le_refl a) c cs
  rcases List.mem_cons.mp hv with rfl | hv
  · exact hl.1
  · exact hl.2 v hv

/-- The evenly spaced edge list has one more entry than the bin count. -/
theorem linspace_length (lo hi : ℚ) (k : ℕ) : (linspace lo hi k).length = k + 1 := by
  rw [linspace, List.length_map, List.length_range]

/-- The evenly spaced edge list starts at its lower bound. -/
theorem linspace_head? (lo hi : ℚ) (k : ℕ) : (linspace lo hi k).head? = some lo := by
  simp only [linspace, List.range_succ_eq_map, List.map_cons, List.head?_cons]
  norm_num

/-- The upper bound belongs to the tail of the evenly spaced edge list. -/
theorem hi_mem_linspace_tail (lo hi : ℚ) (k : ℕ) (hk : k ≠ 0) :
    hi ∈ (linspace lo hi k).tail := by
  simp only [linspace, List.range_succ_eq_map, List.map_cons, List.tail_cons, List.map_map]
  refine List.mem_map.mpr ⟨k - 1, List.mem_range.mpr (Nat.sub_lt (Nat.pos_of_ne_zero hk) Nat.one_pos), ?_⟩
  have hk1 : Nat.succ (k - 1) = k := by omega
  simp only [Function.comp, hk1]
  rw [mul_div_assoc, div_self (by exact_mod_cast hk), mul_one]
  ring

/-- The value-to-bin assignment of cut with five equal-width bins succeeds on
every member of the population, with a bin index below five. -/
theorem cut_path_some (clean : List ℚ) (v : ℚ) (hv : v ∈ clean) (incLow : Bool) :
    ∃ i, binOf (cutEdges clean 5) incLow v = some i ∧ i < 5 := by
  cases clean with
  | nil => simp at hv
  | cons c cs =>
    have hmn : minQ (c :: cs) ≤ v := minQ_le c cs v hv
    have hmx : v ≤ maxQ (c :: cs) := le_maxQ c cs v hv
    simp only [cutEdges]
    by_cases hd : minQ (c :: cs) = maxQ (c :: cs)
    · rw [if_pos hd]
      set adj := if minQ (c :: cs) = 0 then (1 : ℚ) / 1000 else |minQ (c :: cs)| / 1000 with hadj
      have hadjpos : 0 < adj := by
        rw [hadj]
        split_ifs with h0
        · norm_num
        · exact div_pos (abs_pos.mpr h0) (by norm_num)
      obtain ⟨t, ht⟩ : ∃ t, linspace (minQ (c :: cs) - adj) (maxQ (c :: cs) + adj) 5 =
          (minQ (c :: cs) - adj) :: t := by
        have hh := linspace_head? (minQ (c :: cs) - adj) (maxQ (c :: cs) + adj) 5
        cases hE : linspace (minQ (c :: cs) - adj) (maxQ (c :: cs) + adj) 5 with
        | nil => rw [hE] at hh; exact absurd hh (by simp)
        | cons x t =>
          rw [hE] at hh
          simp only [List.head?_cons, Option.some.injEq] at hh
          exact ⟨t, by rw [hh]⟩
      rw [ht]
      have hhi : maxQ (c :: cs) + adj ∈ t := by
        have hm := hi_mem_linspace_tail (minQ (c :: cs) - adj) (maxQ (c :: cs) + adj) 5 (by norm_num)
        rw [ht] at hm
        simpa using hm
      obtain ⟨i, hi, hlen⟩ := binOf_some_of_lt (minQ (c :: cs) - adj) t incLow v
        (by linarith) ⟨maxQ (c :: cs) + adj, hhi, by linarith⟩
      refine ⟨i, hi, ?_⟩
      have h6 := linspace_length (minQ (c :: cs) - adj) (maxQ (c :: cs) + adj) 5
      rw [ht] at h6
      simp only [List.length_cons] at h6
      omega
    · rw [if_neg hd]
      have hlt : minQ (c :: cs) < maxQ (c :: cs) := lt_of_le_of_ne (le_trans hmn hmx) hd
      have hhi : maxQ (c :: cs) ∈ (linspace (minQ (c :: cs)) (maxQ (c :: cs)) 5).tail :=
        hi_mem_linspace_tail _ _ 5 (by norm_num)
      obtain ⟨i, hi, hlen⟩ := binOf_some_of_lt
        (minQ (c :: cs) - (maxQ (c :: cs) - minQ (c :: cs)) / 1000)
        ((linspace (minQ (c :: cs)) (maxQ (c :: cs)) 5).tail) incLow v
        (by
          have hp : 0 < (maxQ (c :: cs) - minQ (c :: cs)) / 1000 :=
            div_pos (by linarith) (by norm_num)
          linarith)
        ⟨maxQ (c :: cs), hhi, hmx⟩
      refine ⟨i, hi, ?_⟩
      have h6 := linspace_length (minQ (c :: cs)) (maxQ (c :: cs)) 5
      have htl : (linspace (minQ (c :: cs)) (maxQ (c :: cs)) 5).tail.length = 5 := by
        rw [List.length_tail, h6]
      omega

/-- Membership in a stable insertion. -/
theorem mem_insertByLt {α : Type} (lt : α → α → Prop) [DecidableRel lt] (a x : α) (l : List α) :
    x ∈ insertByLt lt a l ↔ x = a ∨ x ∈ l := by
  induction l with
  | nil => simp [insertByLt]
  | cons b t ih =>
    simp only [insertByLt]
    by_cases h : lt b a
    · rw [if_pos h]
      simp only [List.mem_cons, ih]
      tauto
    · rw [if_neg h]
      simp only [List.mem_cons]

/-- The sorted list has the same members as the input. -/
theorem mem_sortByLt {α : Type} (lt : α → α → Prop) [DecidableRel lt] (x : α) (l : List α) :
    x ∈ sortByLt lt l ↔ x ∈ l := by
  induction l with
  | nil => simp [sortByLt]
  | cons a t ih =>
    simp only [sortByLt, mem_insertByLt, List.mem_cons, ih]

/-- A stable insertion into a pairwise ordered list stays pairwise ordered. -/
theorem pairwise_insertByLt {α : Type} (lt le : α → α → Prop) [DecidableRel lt]
    (hnot : ∀ a b, ¬ lt b a → le a b)
    (hlt : ∀ a b, lt a b → le a b)
    (htrans : ∀ a b c, le a b → le b c → le a c)
    (a : α) (l : List α) (hl : l.Pairwise le) : (insertByLt lt a l).Pairwise le := by
  induction l with
  | nil => simp [insertByLt]
  | cons b t ih =>
    obtain ⟨hb, ht⟩ := List.pairwise_cons.mp hl
    simp only [insertByLt]
    by_cases h : lt b a
    · rw [if_pos h]
      refine List.pairwise_cons.mpr ⟨?_, ih ht⟩
      intro x hx
      rcases (mem_insertByLt lt a x t).mp hx with rfl | hx
      · exact hlt _ _ h
      · exact hb x hx
    · rw [if_neg h]
      refine List.pairwise_cons.mpr ⟨?_, hl⟩
      intro x hx
      rcases List.mem_cons.mp hx with rfl | hx
      · exact hnot _ _ h
      · exact htrans _ _ _ (hnot _ _ h) (hb x hx)

/-- The ascending sort of a rational list is pairwise ordered. -/
theorem sortQ_pairwise (l : List ℚ) : (sortQ l).Pairwise (fun a b : ℚ => a ≤ b) := by
  unfold sortQ
  induction l with
  | nil => simp [sortByLt]
  | cons a t ih =>
    simp only [sortByLt]
    exact pairwise_insertByLt (fun a b : ℚ => a < b) (fun a b : ℚ => a ≤ b)
      (fun a b h => le_of_not_lt h) (fun a b h => le_of_lt h)
      (fun a b c h1 h2 => le_trans h1 h2) a (sortByLt (fun a b : ℚ => a < b) t) ih

/-- The head of a pairwise ordered list is below every member. -/
theorem sorted_head_le (h0 : ℚ) (t : List ℚ)
    (h : List.Pairwise (fun a b : ℚ => a ≤ b) (h0 :: t)) (x : ℚ) (hx : x ∈ h0 :: t) :
    h0 ≤ x := by
  rcases List.mem_cons.mp hx with rfl | hx
  · exact le_refl x
  · exact (List.pairwise_cons.mp h).1 x hx

/-- Every member of a pairwise ordered list is below its last entry. -/
theorem sorted_le_getLast (l : List ℚ) (hs : List.Pairwise (fun a b : ℚ => a ≤ b) l)
    (x : ℚ) (hx : x ∈ l) (hne : l ≠ []) : x ≤ l.getLast hne := by
  induction l with
  | nil => simp at hx
  | cons a t ih =>
    obtain ⟨ha, ht⟩ := List.pairwise_cons.mp hs
    cases t with
    | nil =>
      rcases List.mem_cons.mp hx with rfl | h
      · simp [List.getLast]
      · simp at h
    | cons b u =>
      rw [List.getLast_cons (by simp : (b :: u) ≠ [])]
      rcases List.mem_cons.mp hx with rfl | h
      · exact ha _ (List.getLast_mem _)
      · exact ih ht h (by simp)

/-- Indexing the list at its length minus one reaches its last entry. -/
theorem getD_last (l : List ℚ) (h : l ≠ []) : l.getD (l.length - 1) 0 = l.getLast h := by
  induction l with
  | nil => exact absurd rfl h
  | cons a t ih =>
    cases t with
    | nil => rfl
    | cons b u =>
      have h2 : (b :: u) ≠ [] := by simp
      have hlen : (a :: b :: u).length - 1 = (b :: u).length - 1 + 1 := by
        simp only [List.length_cons]
        omega
      rw [hlen, List.getD_cons_succ, ih h2, List.getLast_cons h2]

/-- The quantile at probability 0 is the head of the sorted data. -/
theorem quantileAt_zero (c : ℚ) (cs : List ℚ) : quantileAt (c :: cs) 0 = c := by
  simp only [quantileAt]
  norm_num

/-- The quantile at probability 1 is the last entry of the sorted data. -/
theorem quantileAt_one (c : ℚ) (cs : List ℚ) :
    quantileAt (c :: cs) 1 = (c :: cs).getLast (by simp) := by
  simp only [quantileAt]
  have h1 : 1 ≤ (c :: cs).length := by simp
  have hlen : ((c :: cs).length : ℚ) - 1 = (((c :: cs).length - 1 : ℕ) : ℚ) := by
    rw [Nat.cast_sub h1, Nat.cast_one]
  rw [one_mul, hlen, Int.floor_natCast, Int.toNat_natCast, sub_self, zero_mul, add_zero,
    getD_last (c :: cs) (by simp)]

/-- Dropping duplicate edges keeps the list nonempty. -/
theorem dedupSorted_ne_nil (a : ℚ) (l : List ℚ) : dedupSorted (a :: l) ≠ [] := by
  induction l generalizing a with
  | nil => simp [dedupSorted]
  | cons b t ih =>
    simp only [dedupSorted]
    by_cases h : a = b
    · rw [if_pos h]
      exact ih b
    · rw [if_neg h]
      simp

/-- Dropping duplicate edges keeps the first entry. -/
theorem dedupSorted_head? (a : ℚ) (l : List ℚ) : (dedupSorted (a :: l)).head? = some a := by
  induction l generalizing a with
  | nil => rfl
  | cons b t ih =>
    simp only [dedupSorted]
    by_cases h : a = b
    · rw [if_pos h, ih b, h]
    · rw [if_neg h]
      rfl

/-- Dropping duplicate edges keeps the last entry. -/
theorem dedupSorted_getLast? (l : List ℚ) : (dedupSorted l).getLast? = l.getLast? := by
  induction l with
  | nil => rfl
  | cons a t ih =>
    cases t with
    | nil => rfl
    | cons b u =>
      simp only [dedupSorted]
      by_cases h : a = b
      · rw [if_pos h, ih, List.getLast?_cons_cons]
      · rw [if_neg h]
        obtain ⟨c, cs, hE⟩ : ∃ c cs, dedupSorted (b :: u) = c :: cs := by
          cases hD : dedupSorted (b :: u) with
          | nil => exact absurd hD (dedupSorted_ne_nil b u)
          | cons c cs => exact ⟨c, cs, rfl⟩
        rw [hE, List.getLast?_cons_cons, ← hE, ih, List.getLast?_cons_cons]

/-- The first six naturals. -/
theorem range6_eq : List.range 6 = [0, 1, 2, 3, 4, 5] := by decide

/-- The quintile edge list starts at the quantile of probability 0. -/
theorem qcutEdges_head? (clean : List ℚ) :
    (qcutEdges clean).head? = some (quantileAt (sortQ clean) 0) := by
  rw [qcutEdges, range6_eq]
  simp only [List.map_cons, List.head?_cons, Option.some.injEq]
  norm_num

/-- The quintile edge list ends at the quantile of probability 1. -/
theorem qcutEdges_getLast? (clean : List ℚ) :
    (qcutEdges clean).getLast? = some (quantileAt (sortQ clean) 1) := by
  rw [qcutEdges, range6_eq]
  simp only [List.map_cons, List.map_nil, List.getLast?_cons_cons]
  norm_num

/-- The value-to-bin assignment of the deduplicated quintile edges succeeds on
every member of the population whenever the six edges survive, with a bin
index below five. -/
theorem qcut_path_some (clean : List ℚ) (v : ℚ) (hv : v ∈ clean)
    (hlen : (dedupSorted (qcutEdges clean)).length = 6) :
    ∃ i, binOf (dedupSorted (qcutEdges clean)) true v = some i ∧ i < 5 := by
  have hvs : v ∈ sortQ clean := (mem_sortByLt (fun a b : ℚ => a < b) v clean).mpr hv
  have hsorted := sortQ_pairwise clean
  cases hS : sortQ clean with
  | nil =>
    rw [hS] at hvs
    simp at hvs
  | cons c cs =>
    rw [hS] at hvs hsorted
    have hcv : c ≤ v := sorted_head_le c cs hsorted v hvs
    have hvl : v ≤ (c :: cs).getLast (by simp) := sorted_le_getLast _ hsorted v hvs (by simp)
    have hq0 : quantileAt (sortQ clean) 0 = c := by
      rw [hS]
      exact quantileAt_zero c cs
    have hq1 : quantileAt (sortQ clean) 1 = (c :: cs).getLast (by simp) := by
      rw [hS]
      exact quantileAt_one c cs
    obtain ⟨q0, tE, hqE⟩ : ∃ q0 tE, qcutEdges clean = q0 :: tE := by
      cases hQ : qcutEdges clean with
      | nil =>
        have := qcutEdges_head? clean
        rw [hQ] at this
        exact absurd this (by simp)
      | cons q0 tE => exact ⟨q0, tE, rfl⟩
    have hhead : (dedupSorted (qcutEdges clean)).head? = some c := by
      rw [hqE, dedupSorted_head?]
      have := qcutEdges_head? clean
      rw [hqE] at this
      simp only [List.head?_cons, Option.some.injEq] at this
      rw [this, hq0]
    obtain ⟨e0, rest, hE⟩ : ∃ e0 rest, dedupSorted (qcutEdges clean) = e0 :: rest := by
      cases hD : dedupSorted (qcutEdges clean) with
      | nil =>
        rw [hD] at hlen
        simp at hlen
      | cons e0 rest => exact ⟨e0, rest, rfl⟩
    have he0 : e0 = c := by
      rw [hE] at hhead
      simp only [List.head?_cons, Option.some.injEq] at hhead
      exact hhead
    have hrest : rest.length = 5 := by
      rw [hE] at hlen
      simp only [List.length_cons] at hlen
      omega
    obtain ⟨r1, rs, hR⟩ : ∃ r1 rs, rest = r1 :: rs := by
      cases hr : rest with
      | nil =>
        rw [hr] at hrest
        simp at hrest
      | cons r1 rs => exact ⟨r1, rs, rfl⟩
    have hlastmem : (c :: cs).getLast (by simp) ∈ rest := by
      have hgl := dedupSorted_getLast? (qcutEdges clean)
      rw [hE, hR, List.getLast?_cons_cons, qcutEdges_getLast?, hq1] at hgl
      have hx : (c :: cs).getLast (by simp) ∈ (r1 :: rs).getLast? := Option.mem_def.mpr hgl
      obtain ⟨hne2, hxe⟩ := List.mem_getLast?_eq_getLast hx
      rw [hR, hxe]
      exact List.getLast_mem hne2
    rw [hE, he0]
    by_cases hveq : v = c
    · refine ⟨0, binOf_some_of_eq c rest v hveq ?_, by omega⟩
      rw [hR]
      simp
    · have hlt : c < v := lt_of_le_of_ne hcv (fun h => hveq h.symm)
      obtain ⟨i, hi, hilen⟩ := binOf_some_of_lt c rest true v hlt
        ⟨(c :: cs).getLast (by simp), hlastmem, hvl⟩
      exact ⟨i, hi, by omega⟩

/-- Every bin index below five carries a recency label. -/
theorem recencyLabels_get_some (i : ℕ) (h : i < 5) :
    ∃ x, ([5, 4, 3, 2, 1] : List ℕ).get? i = some x := by
  interval_cases i <;> exact ⟨_, rfl⟩

/-- The recency label list is antitone: a later bin carries a smaller
label. -/
theorem recencyLabels_antitone (i j : ℕ) (hij : i ≤ j) (x y : ℕ)
    (hx : ([5, 4, 3, 2, 1] : List ℕ).get? i = some x)
    (hy : ([5, 4, 3, 2, 1] : List ℕ).get? j = some y) : y ≤ x := by
  have hj : j < 5 := by
    by_contra hj
    rw [List.get?_eq_none.mpr (by simp only [List.length_cons, List.length_nil]; omega)] at hy
    exact absurd hy (by simp)
  have hi : i < 5 := by omega
  interval_cases i <;> interval_cases j <;>
    (injection hx with hx; injection hy with hy; omega)

/-- With both values binned below five, the reversed recency labels score the
larger value no higher than the smaller one. -/
theorem score_le_of_bins (edges : List ℚ) (incLow : Bool) (a b : ℚ) (hab : a < b)
    (ia ib : ℕ) (hia : binOf edges incLow a = some ia) (hib : binOf edges incLow b = some ib)
    (ha5 : ia < 5) (hb5 : ib < 5) :
    ((applyCut edges incLow [5, 4, 3, 2, 1] (some b)).map (fun n : ℕ => (n : ℚ))).getD 3 ≤
      ((applyCut edges incLow [5, 4, 3, 2, 1] (some a)).map (fun n : ℕ => (n : ℚ))).getD 3 := by
  have hij : ia ≤ ib := binOf_mono edges incLow a b hab ia ib hia hib
  obtain ⟨x, hx⟩ := recencyLabels_get_some ia ha5
  obtain ⟨y, hy⟩ := recencyLabels_get_some ib hb5
  have hxy : y ≤ x := recencyLabels_antitone ia ib hij x y hx hy
  simp only [applyCut, Option.some_bind, hia, hib, hx, hy, Option.map_some', Option.getD_some]
  exact_mod_cast hxy

/-- C7: sharper recency always scores at least as well: for two population
members with the smaller and the larger days-since-last-order, the
safe_quantile_cut recency score of the larger value never exceeds that of the
smaller, on the quantile path and the equal-width fallback path alike. -/
theorem recency_score_monotone (pop : List (Option ℚ)) (a b : ℚ)
    (ha : some a ∈ pop) (hb : some b ∈ pop) (hab : a < b) :
    dash_score pop [5, 4, 3, 2, 1] (some b) ≤ dash_score pop [5, 4, 3, 2, 1] (some a) := by
  have hac : a ∈ pop.filterMap id := List.mem_filterMap.mpr ⟨some a, ha, rfl⟩
  have hbc : b ∈ pop.filterMap id := List.mem_filterMap.mpr ⟨some b, hb, rfl⟩
  unfold dash_score safe_quantile_cut
  rw [show ([5, 4, 3, 2, 1] : List ℕ).length = 5 from rfl]
  dsimp only
  split_ifs with h1 h2
  · obtain ⟨ia, hia, ha5⟩ := cut_path_some (pop.filterMap id) a hac false
    obtain ⟨ib, hib, hb5⟩ := cut_path_some (pop.filterMap id) b hbc false
    exact score_le_of_bins _ false a b hab ia ib hia hib ha5 hb5
  · have h6 : (dedupSorted (qcutEdges (pop.filterMap id))).length = 6 := by omega
    obtain ⟨ia, hia, ha5⟩ := qcut_path_some (pop.filterMap id) a hac h6
    obtain ⟨ib, hib, hb5⟩ := qcut_path_some (pop.filterMap id) b hbc h6
    exact score_le_of_bins _ true a b hab ia ib hia hib ha5 hb5
  · obtain ⟨ia, hia, ha5⟩ := cut_path_some (pop.filterMap id) a hac false
    obtain ⟨ib, hib, hb5⟩ := cut_path_some (pop.filterMap id) b hbc false
    exact score_le_of_bins _ false a b hab ia ib hia hib ha5 hb5

/-- C7 witness: in a concrete two-member population the more recent customer
scores at least as well as the less recent one. -/
theorem recency_score_monotone_witness :
    dash_score [some 0, some 10] [5, 4, 3, 2, 1] (some 10) ≤
      dash_score [some 0, some 10] [5, 4, 3, 2, 1] (some 0) :=
  recency_score_monotone [some 0, some 10] 0 10 (by simp) (by simp) (by norm_num)

/-- Stable insertion permutes the consed list. -/
theorem insertByLt_perm {α : Type} (lt : α → α → Prop) [DecidableRel lt] (a : α) (l : List α) :
    (insertByLt lt a l).Perm (a :: l) := by
  induction l with
  | nil => exact List.Perm.refl _
  | cons b t ih =>
    simp only [insertByLt]
    by_cases h : lt b a
    · rw [if_pos h]
      exact (ih.cons b).trans (List.Perm.swap a b t)
    · rw [if_neg h]

/-- The stable sort is a permutation of its input. -/
theorem sortByLt_perm {α : Type} (lt : α → α → Prop) [DecidableRel lt] (l : List α) :
    (sortByLt lt l).Perm l := by
  induction l with
  | nil => exact List.Perm.refl _
  | cons a t ih =>
    simp only [sortByLt]
    exact (insertByLt_perm lt a (sortByLt lt t)).trans (ih.cons a)

/-- Stable insertion and filtering by a predicate that only holds on one sort
key commute: the inserted element lands in front of all its key mates. -/
theorem filter_insertByLt_of_key {α : Type} (lt : α → α → Prop) [DecidableRel lt]
    (p : α → Bool) (hkey : ∀ x y, p x = true → p y = true → ¬ lt x y)
    (a : α) (l : List α) :
    (insertByLt lt a l).filter p =
      if p a then a :: l.filter p else l.filter p := by
  induction l with
  | nil =>
    simp only [insertByLt, List.filter_cons, List.filter_nil]
  | cons b t ih =>
    simp only [insertByLt]
    by_cases h : lt b a
    · rw [if_pos h]
      by_cases hpa : p a
      · have hpb : p b = false := by
          by_contra hpb
          exact hkey b a (by simpa using hpb) hpa h
        simp [List.filter_cons, hpb, ih, hpa]
      · simp [List.filter_cons, ih, hpa]
    · rw [if_neg h]
      by_cases hpa : p a
      · simp [List.filter_cons, hpa]
      · simp [List.filter_cons, hpa]

/-- The stable sort preserves the relative order of rows sharing one sort
key: filtering the sorted list by a key equals filtering the input. -/
theorem filter_sortByLt_of_key {α : Type} (lt : α → α → Prop) [DecidableRel lt]
    (p : α → Bool) (hkey : ∀ x y, p x = true → p y = true → ¬ lt x y) (l : List α) :
    (sortByLt lt l).filter p = l.filter p := by
  induction l with
  | nil => rfl
  | cons a t ih =>
    simp only [sortByLt]
    rw [filter_insertByLt_of_key lt p hkey a (sortByLt lt t)]
    by_cases h : p a
    · rw [if_pos h, ih, List.filter_cons, if_pos h]
    · rw [if_neg h, ih, List.filter_cons, if_neg h]

/-- The sorted journey table is pairwise ordered under the weak key order. -/
theorem journeySorted_pairwise (txs : List JourneyTx) :
    (journeySorted txs).Pairwise journeyLe := by
  unfold journeySorted
  induction txs with
  | nil => simp [sortByLt]
  | cons a t ih =>
    simp only [sortByLt]
    refine pairwise_insertByLt journeyLt journeyLe ?_ ?_ ?_ a (sortByLt journeyLt t) ih
    · intro x y h
      unfold journeyLt at h
      unfold journeyLe
      omega
    · intro x y h
      unfold journeyLt at h
      unfold journeyLe
      omega
    · intro x y z h1 h2
      unfold journeyLe at *
      omega

/-- Reading a list back off by positions reproduces the list. -/
theorem map_getD_range (l : List JourneyTx) :
    (List.range l.length).map (fun i => l.getD i default) = l := by
  induction l with
  | nil => rfl
  | cons a t ih =>
    rw [List.length_cons, List.range_succ_eq_map, List.map_cons, List.map_map]
    have harg : ((fun i => (a :: t).getD i default) ∘ Nat.succ) =
        (fun i => t.getD i default) := by
      funext i
      simp [List.getD_cons_succ]
    rw [harg, ih]
    simp

/-- The first components of the sequenced table are the sorted journey
table. -/
theorem customer_sequence_fst (txs : List JourneyTx) :
    (customer_sequence txs).map (fun p => p.1) = journeySorted txs := by
  unfold customer_sequence
  dsimp only
  rw [List.map_map]
  have harg : ((fun p : JourneyTx × ℕ => p.1) ∘ (fun i =>
      ((journeySorted txs).getD i default,
        1 + (((journeySorted txs).take i).filter
          (fun u => u.customer_id == ((journeySorted txs).getD i default).customer_id)).length))) =
      (fun i => (journeySorted txs).getD i default) := by
    funext i
    rfl
  rw [harg, map_getD_range]

/-- Counting key mates over a longer prefix that passes through a matching
row strictly grows. -/
theorem filter_take_lt (s : List JourneyTx) (p : JourneyTx → Bool) (i j : ℕ)
    (hij : i < j) (hpi : i < s.length) (hp : p (s.get ⟨i, hpi⟩) = true) :
    ((s.take i).filter p).length < ((s.take j).filter p).length := by
  have h1 : ((s.take (i + 1)).filter p).length = ((s.take i).filter p).length + 1 := by
    rw [List.take_succ, List.filter_append, List.length_append]
    rw [List.getElem?_eq_getElem hpi]
    have hp2 : p s[i] = true := hp
    simp [hp2]
  have h2 : ((s.take (i + 1)).filter p).length ≤ ((s.take j).filter p).length := by
    have htt : s.take (i + 1) = (s.take j).take (i + 1) := by
      rw [List.take_take, min_eq_left (by omega)]
    rw [htt]
    conv_rhs => rw [← List.take_append_drop (i + 1) (s.take j)]
    rw [List.filter_append, List.length_append]
    omega
  omega

/-- Sequencing keeps one row per sorted row. -/
theorem customer_sequence_length (txs : List JourneyTx) :
    (customer_sequence txs).length = (journeySorted txs).length := by
  unfold customer_sequence
  dsimp only
  rw [List.length_map, List.length_range]

/-- One row of the sequenced table: the sorted row paired with one plus the
number of earlier same-customer rows. -/
theorem customer_sequence_get (txs : List JourneyTx) (k : ℕ)
    (hk : k < (customer_sequence txs).length) (hk2 : k < (journeySorted txs).length) :
    (customer_sequence txs).get ⟨k, hk⟩ =
      ((journeySorted txs).get ⟨k, hk2⟩,
        1 + (((journeySorted txs).take k).filter
          (fun u => u.customer_id == ((journeySorted txs).get ⟨k, hk2⟩).customer_id)).length) := by
  unfold customer_sequence
  dsimp only
  rw [List.get_eq_getElem, List.getElem_map, List.getElem_range]
  have hg : (journeySorted txs).getD k default = (journeySorted txs).get ⟨k, hk2⟩ := by
    rw [List.getD_eq_getElem _ _ hk2, List.get_eq_getElem]
  rw [hg]

/-- C8 (amended): order_sequence is the 1-based rank of each transaction
within its customer's rows sorted by order_date ascending — a strictly
earlier date always receives a strictly smaller sequence number, and the
sequenced rows are a permutation of the input — but rows tying on
(customer_id, order_date) keep the input table's row order, because the
multi-column sort is stable; they are not re-ordered by transaction id.
Category counts are reported only for sequence positions 1 and 2, and the
mean-order-value table keeps positions up to 10. -/
theorem order_sequence_props :
    (∀ txs : List JourneyTx, ((customer_sequence txs).map (fun p => p.1)).Perm txs) ∧
    (∀ (txs : List JourneyTx) (i j : ℕ) (hi : i < (customer_sequence txs).length)
      (hj : j < (customer_sequence txs).length),
      ((customer_sequence txs).get ⟨i, hi⟩).1.customer_id =
        ((customer_sequence txs).get ⟨j, hj⟩).1.customer_id →
      ((customer_sequence txs).get ⟨i, hi⟩).1.order_date <
        ((customer_sequence txs).get ⟨j, hj⟩).1.order_date →
      ((customer_sequence txs).get ⟨i, hi⟩).2 < ((customer_sequence txs).get ⟨j, hj⟩).2) ∧
    (∀ (txs : List JourneyTx) (c : ℕ) (d : ℤ),
      (journeySorted txs).filter (fun t => t.customer_id == c && t.order_date == d) =
        txs.filter (fun t => t.customer_id == c && t.order_date == d)) ∧
    (∀ txs : List JourneyTx, ∀ e ∈ aov_by_sequence txs, e.1 ≤ 10) ∧
    (∀ txs : List JourneyTx, ∀ p ∈ first_purchase txs, p.2 = 1) ∧
    (∀ txs : List JourneyTx, ∀ p ∈ second_purchase txs, p.2 = 2) := by
  refine ⟨?_, ?_, ?_, ?_, ?_, ?_⟩
  · intro txs
    rw [customer_sequence_fst]
    exact sortByLt_perm journeyLt txs
  · intro txs i j hi hj hcid hdate
    have hlen := customer_sequence_length txs
    have hi2 : i < (journeySorted txs).length := by omega
    have hj2 : j < (journeySorted txs).length := by omega
    rw [customer_sequence_get txs i hi hi2, customer_sequence_get txs j hj hj2] at hcid hdate ⊢
    dsimp only at hcid hdate ⊢
    have hij : i < j := by
      rcases lt_trichotomy i j with h | h | h
      · exact h
      · exfalso
        subst h
        exact absurd hdate (lt_irrefl _)
      · exfalso
        have hp := (List.pairwise_iff_get.mp (journeySorted_pairwise txs))
          ⟨j, hj2⟩ ⟨i, hi2⟩ h
        unfold journeyLe at hp
        omega
    have hbeq : (fun u : JourneyTx =>
        u.customer_id == ((journeySorted txs).get ⟨i, hi2⟩).customer_id) =
        (fun u : JourneyTx =>
        u.customer_id == ((journeySorted txs).get ⟨j, hj2⟩).customer_id) := by
      rw [hcid]
    rw [hbeq]
    have hp : (fun u : JourneyTx =>
        u.customer_id == ((journeySorted txs).get ⟨j, hj2⟩).customer_id)
        ((journeySorted txs).get ⟨i, hi2⟩) = true := by
      simp only [beq_iff_eq]
      exact hcid
    have := filter_take_lt (journeySorted txs)
      (fun u : JourneyTx => u.customer_id == ((journeySorted txs).get ⟨j, hj2⟩).customer_id)
      i j hij hi2 hp
    omega
  · intro txs c d
    refine filter_sortByLt_of_key journeyLt _ ?_ txs
    intro x y hx hy
    simp only [Bool.and_eq_true, beq_iff_eq] at hx hy
    unfold journeyLt
    omega
  · intro txs e he
    unfold aov_by_sequence at he
    dsimp only at he
    rw [List.mem_filter] at he
    exact of_decide_eq_true he.2
  · intro txs p hp
    unfold first_purchase at hp
    rw [List.mem_filter] at hp
    simpa using hp.2
  · intro txs p hp
    unfold second_purchase at hp
    rw [List.mem_filter] at hp
    simpa using hp.2

/-- C8 counterexample: two rows of one customer share an order date and enter
with the larger transaction id first; the sequencing gives the first input
row sequence 1, so ties are not broken by transaction id ascending. -/
theorem order_sequence_tiebreak_cex :
    ¬ (∀ p ∈ customer_sequence journeyDemo, ∀ q ∈ customer_sequence journeyDemo,
        p.1.customer_id = q.1.customer_id → p.1.order_date = q.1.order_date →
        p.1.transaction_id < q.1.transaction_id → p.2 < q.2) := by
  decide

/-- C8 witness: in the demo with distinct dates the earlier order receives
the smaller sequence number. -/
theorem order_sequence_props_witness :
    ((customer_sequence journeyDemo2).get ⟨0, by decide⟩).2 <
      ((customer_sequence journeyDemo2).get ⟨1, by decide⟩).2 :=
  order_sequence_props.2.1 journeyDemo2 0 1 (by decide) (by decide) (by decide) (by decide)

end AmazonAnalytics
